import Mathlib

/-!
Verification of the query-resolution pipeline of In-Surely
(`In_Surely.ipynb`): a semantic cache (a second ChromaDB collection keyed
by past query strings) in front of a vector-similarity retrieval store,
followed by a cross-encoder reranking stage.

Modelling conventions (shallow embedding):
* A ChromaDB collection is a list of entries `(id, document, embedding,
  metadata)`.  `collection.query` embeds the query text via the external
  embedding function (a parameter of every definition that needs it,
  returning `Except` since a remote embedder may fail), computes the
  distance of the query vector to every stored vector, and returns the
  `n_results` nearest entries in ascending order of distance.  ChromaDB's
  default distance is squared L2, modelled exactly as `sqDist` over
  rational vectors (floats are modelled by `ℚ`; no claim here depends on
  rounding).  A query against an empty collection returns an empty result
  (no error), matching the behaviour the notebook relies on.
* `collection.add` with an id that is already present keeps the existing
  record and ignores the new one (ChromaDB `add` semantics: duplicate ids
  are skipped with a warning; overwriting is what the distinct `upsert`
  operation would do, and the notebook calls `add`).
* The cache payload is really stored as three Python strings
  (`str(results['documents'][0])` etc.) and parsed back with
  `ast.literal_eval`.  This is modelled by executable printers and a
  recursive-descent parser over `List Char`: lists are printed
  Python-style (`[e1, e2]`), strings quoted with escaped quote/backslash
  characters, metadata dicts with their two keys in insertion order, and
  numbers (modelled as `ℚ`) as `num/den`.  The printers and the parser are
  both total executable functions and the round-trip is proved, which is
  the property the pipeline relies on.
* Python exceptions are modelled with `Except`; the persistent cache
  state is threaded explicitly, and a failing call returns the error
  together with the cache state as it stands at the point of failure, so
  that "no partial write" claims are meaningful.
-/

namespace InSurely

/-- Failure modes of the pipeline: a failing external embedder, a cache
payload that `ast.literal_eval` cannot parse, and a failing external
cross-encoder. -/
inductive Err where
  | embeddingError
  | parseError
  | scoringError
deriving DecidableEq

instance {ε α : Type} [DecidableEq ε] [DecidableEq α] : DecidableEq (Except ε α) := fun x y =>
  match x, y with
  | .ok a, .ok b =>
    if h : a = b then .isTrue (by rw [h]) else .isFalse (fun hc => h (Except.ok.inj hc))
  | .error a, .error b =>
    if h : a = b then .isTrue (by rw [h]) else .isFalse (fun hc => h (Except.error.inj hc))
  | .ok _, .error _ => .isFalse (fun hc => Except.noConfusion hc)
  | .error _, .ok _ => .isFalse (fun hc => Except.noConfusion hc)

/-- Per-page metadata attached to every chunk by the notebook:
`{"Policy_Name": ..., "Page_No": ...}`. -/
structure Metadata where
  policy_name : String
  page_no : Int
deriving DecidableEq

/-- The metadata payload the notebook stores in the cache collection on a
miss: the three result lists serialized with Python `str`. -/
structure CachePayload where
  documents : String
  distances : String
  metadatas : String
deriving DecidableEq

/-- One record of a ChromaDB collection: id, document text, stored
embedding vector and a metadata payload (`Metadata` for the main
collection, `CachePayload` for the cache collection). -/
structure Entry (π : Type) where
  id : String
  document : String
  embedding : List ℚ
  metadata : π
deriving DecidableEq

/-- The DataFrame `retrieve_documents` returns: the parallel columns
`Documents`, `Metadata`, `Distances`. -/
structure RetrievalResult where
  documents : List String
  metadatas : List Metadata
  distances : List ℚ
deriving DecidableEq

/-- The DataFrame after `rerank_results` added the `Reranked_Scores`
column. -/
structure RankedResult where
  documents : List String
  metadatas : List Metadata
  distances : List ℚ
  reranked_scores : List ℚ
deriving DecidableEq

/-! ### Characters used by the serializer -/

def quoteCh : Char := Char.ofNat 39

def backslashCh : Char := Char.ofNat 92

def lbraceCh : Char := Char.ofNat 123

def rbraceCh : Char := Char.ofNat 125

/-! ### Python-style string literals -/

/-- Escape a single character as Python `str` does inside a
single-quoted string literal: quote and backslash get a backslash
prefix, everything else is printed verbatim. -/
def escChar (c : Char) : List Char :=
  if c = quoteCh ∨ c = backslashCh then [backslashCh, c] else [c]

def escChars : List Char → List Char
  | [] => []
  | c :: cs => escChar c ++ escChars cs

/-- Python `str` of a string as it appears inside `str` of a list:
a quoted literal with escapes. -/
def strReprChars (s : String) : List Char :=
  quoteCh :: escChars s.data ++ [quoteCh]

/-- Parse the body of a quoted string literal up to (and consuming) the
closing quote; returns the decoded characters and the rest of the
input. -/
def parseStrBody : List Char → Option (List Char × List Char)
  | [] => none
  | c :: cs =>
    if c = quoteCh then some ([], cs)
    else if c = backslashCh then
      match cs with
      | [] => none
      | d :: cs2 =>
        match parseStrBody cs2 with
        | some (s, rem) => some (d :: s, rem)
        | none => none
    else
      match parseStrBody cs with
      | some (s, rem) => some (c :: s, rem)
      | none => none

/-- Parse a quoted string literal. -/
def parseStrChars : List Char → Option (String × List Char)
  | [] => none
  | c :: cs =>
    if c = quoteCh then
      match parseStrBody cs with
      | some (s, rem) => some (String.mk s, rem)
      | none => none
    else none

theorem quoteCh_ne_backslashCh : quoteCh ≠ backslashCh := by decide

theorem parseStrBody_escChars (s rest : List Char) :
    parseStrBody (escChars s ++ quoteCh :: rest) = some (s, rest) := by
  induction s with
  | nil =>
    rw [escChars, List.nil_append, parseStrBody.eq_def]
    simp
  | cons c cs ih =>
    by_cases hc : c = quoteCh ∨ c = backslashCh
    · simp only [escChars, escChar, if_pos hc, List.cons_append, List.append_assoc,
        List.nil_append]
      have hbq : ¬ backslashCh = quoteCh := fun h => quoteCh_ne_backslashCh h.symm
      rw [parseStrBody.eq_def]
      simp [hbq, ih]
    · push_neg at hc
      simp only [escChars, escChar, if_neg (by tauto), List.cons_append, List.nil_append]
      rw [parseStrBody.eq_def]
      simp [hc.1, hc.2, ih]

theorem parseStrChars_strReprChars (s : String) (rest : List Char) :
    parseStrChars (strReprChars s ++ rest) = some (s, rest) := by
  simp [strReprChars, parseStrChars, parseStrBody_escChars]

/-! ### Decimal numbers

Numeric scalars (distances, scores, page numbers) are modelled as exact
rationals / integers; their textual serialization in the cache payload is
an injective decimal encoding with a verified parser, standing in for
Python's `str`/`ast.literal_eval` round trip on numbers. -/

def minusCh : Char := Char.ofNat 45

def slashCh : Char := Char.ofNat 47

def digitToChar (d : Nat) : Char := Char.ofNat (48 + d)

def isDigitCh (c : Char) : Bool := decide (48 ≤ c.toNat ∧ c.toNat ≤ 57)

def digitVal (c : Char) : Nat := c.toNat - 48

/-- Little-endian decimal digits of `n`; the fuel argument makes the
recursion structural (any fuel at least `n` is enough). -/
def natDigitsAux : Nat → Nat → List Char
  | _, 0 => []
  | 0, _ + 1 => []
  | fuel + 1, n + 1 => digitToChar ((n + 1) % 10) :: natDigitsAux fuel ((n + 1) / 10)

/-- Decimal representation of a natural number. -/
def natReprChars (n : Nat) : List Char :=
  if n = 0 then [digitToChar 0] else (natDigitsAux n n).reverse

/-- Parse a maximal run of decimal digits. -/
def parseNatChars (l : List Char) : Option (Nat × List Char) :=
  let ds := l.takeWhile isDigitCh
  if ds.isEmpty then none
  else some (ds.foldl (fun acc c => 10 * acc + digitVal c) 0, l.dropWhile isDigitCh)

/-- Decimal representation of an integer (optional leading minus). -/
def intReprChars (i : Int) : List Char :=
  if i < 0 then minusCh :: natReprChars i.natAbs else natReprChars i.natAbs

def parseIntChars : List Char → Option (Int × List Char)
  | [] => none
  | c :: cs =>
    if c = minusCh then
      match parseNatChars cs with
      | some (m, rem) => some (-(m : Int), rem)
      | none => none
    else
      match parseNatChars (c :: cs) with
      | some (m, rem) => some ((m : Int), rem)
      | none => none

/-- Representation of a rational as `numerator/denominator`. -/
def ratReprChars (q : ℚ) : List Char :=
  intReprChars q.num ++ slashCh :: natReprChars q.den

def parseRatChars (l : List Char) : Option (ℚ × List Char) :=
  match parseIntChars l with
  | some (num, rem) =>
    match rem with
    | [] => none
    | c :: cs =>
      if c = slashCh then
        match parseNatChars cs with
        | some (den, rem2) => some ((num : ℚ) / (den : ℚ), rem2)
        | none => none
      else none
  | none => none

/-- `Prop`-level side condition: the input does not continue with a
character satisfying `p` (so a maximal-munch parser stops exactly at the
boundary). -/
def headNot (p : α → Bool) : List α → Prop
  | [] => True
  | c :: _ => p c = false

theorem digitToChar_toNat {d : Nat} (h : d < 10) : (digitToChar d).toNat = 48 + d := by
  interval_cases d <;> decide

theorem isDigitCh_digitToChar {d : Nat} (h : d < 10) : isDigitCh (digitToChar d) = true := by
  interval_cases d <;> decide

theorem digitVal_digitToChar {d : Nat} (h : d < 10) : digitVal (digitToChar d) = d := by
  interval_cases d <;> decide

theorem natDigitsAux_mem_digit :
    ∀ fuel n c, c ∈ natDigitsAux fuel n → isDigitCh c = true := by
  intro fuel
  induction fuel with
  | zero =>
    intro n c h
    cases n <;> simp [natDigitsAux] at h
  | succ f ih =>
    intro n c h
    cases n with
    | zero => simp [natDigitsAux] at h
    | succ m =>
      rw [natDigitsAux] at h
      rcases List.mem_cons.mp h with h1 | h2
      · subst h1
        exact isDigitCh_digitToChar (Nat.mod_lt _ (by omega))
      · exact ih _ _ h2

theorem natDigitsAux_val :
    ∀ fuel n, n ≤ fuel →
      (natDigitsAux fuel n).foldr (fun c acc => 10 * acc + digitVal c) 0 = n := by
  intro fuel
  induction fuel with
  | zero =>
    intro n h
    interval_cases n
    simp [natDigitsAux]
  | succ f ih =>
    intro n h
    cases n with
    | zero => simp [natDigitsAux]
    | succ m =>
      rw [natDigitsAux, List.foldr_cons]
      have hdiv : (m + 1) / 10 ≤ f := by
        have := Nat.div_lt_self (Nat.succ_pos m) (by omega : 1 < 10)
        omega
      rw [ih _ hdiv, digitVal_digitToChar (Nat.mod_lt _ (by omega))]
      omega

theorem natReprChars_all_digits (n : Nat) :
    ∀ c ∈ natReprChars n, isDigitCh c = true := by
  intro c hc
  rw [natReprChars] at hc
  split at hc
  · simp at hc
    subst hc
    decide
  · rw [List.mem_reverse] at hc
    exact natDigitsAux_mem_digit _ _ _ hc

theorem natReprChars_ne_nil (n : Nat) : natReprChars n ≠ [] := by
  rw [natReprChars]
  split
  · simp
  · rename_i h
    rcases Nat.exists_eq_succ_of_ne_zero h with ⟨m, rfl⟩
    rw [natDigitsAux]
    simp

theorem natReprChars_val (n : Nat) :
    (natReprChars n).foldl (fun acc c => 10 * acc + digitVal c) 0 = n := by
  rw [natReprChars]
  split
  · rename_i h
    subst h
    decide
  · rw [List.foldl_reverse]
    exact natDigitsAux_val n n le_rfl

theorem takeWhile_append_all {α : Type} {p : α → Bool} :
    ∀ (xs rest : List α), (∀ c ∈ xs, p c = true) → headNot p rest →
      (xs ++ rest).takeWhile p = xs ∧ (xs ++ rest).dropWhile p = rest := by
  intro xs
  induction xs with
  | nil =>
    intro rest _ hrest
    cases rest with
    | nil => simp
    | cons c cs =>
      simp only [headNot] at hrest
      simp [List.takeWhile, List.dropWhile, hrest]
  | cons x xs ih =>
    intro rest hall hrest
    have hx : p x = true := hall x (List.mem_cons_self x xs)
    have := ih rest (fun c hc => hall c (List.mem_cons_of_mem x hc)) hrest
    simp [List.takeWhile, List.dropWhile, hx, this.1, this.2]

theorem parseNatChars_natReprChars (n : Nat) (rest : List Char)
    (hrest : headNot isDigitCh rest) :
    parseNatChars (natReprChars n ++ rest) = some (n, rest) := by
  have h := takeWhile_append_all (natReprChars n) rest (natReprChars_all_digits n) hrest
  rw [parseNatChars]
  simp only [h.1, h.2]
  rw [if_neg (by simp [List.isEmpty_iff, natReprChars_ne_nil n])]
  rw [natReprChars_val]

theorem isDigitCh_ne_minusCh {c : Char} (h : isDigitCh c = true) : ¬ c = minusCh := by
  intro hc
  rw [hc] at h
  exact absurd h (by decide)

theorem parseIntChars_intReprChars (i : Int) (rest : List Char)
    (hrest : headNot isDigitCh rest) :
    parseIntChars (intReprChars i ++ rest) = some (i, rest) := by
  rw [intReprChars]
  split
  · rename_i hneg
    rw [List.cons_append, parseIntChars]
    rw [if_pos rfl, parseNatChars_natReprChars _ _ hrest]
    have hi : -((i.natAbs : Int)) = i := by omega
    show some (-((i.natAbs : Int)), rest) = some (i, rest)
    rw [hi]
  · rename_i hpos
    obtain ⟨c, cs, hcons⟩ : ∃ c cs, natReprChars i.natAbs = c :: cs := by
      cases h : natReprChars i.natAbs with
      | nil => exact absurd h (natReprChars_ne_nil _)
      | cons c cs => exact ⟨c, cs, rfl⟩
    have hcdig : isDigitCh c = true :=
      natReprChars_all_digits i.natAbs c (hcons ▸ List.mem_cons_self c cs)
    rw [hcons, List.cons_append, parseIntChars]
    rw [if_neg (isDigitCh_ne_minusCh hcdig), ← List.cons_append, ← hcons,
      parseNatChars_natReprChars _ _ hrest]
    have hi : ((i.natAbs : Int)) = i := by omega
    show some (((i.natAbs : Int)), rest) = some (i, rest)
    rw [hi]

theorem isDigitCh_slashCh : isDigitCh slashCh = false := by decide

theorem parseRatChars_ratReprChars (q : ℚ) (rest : List Char)
    (hrest : headNot isDigitCh rest) :
    parseRatChars (ratReprChars q ++ rest) = some (q, rest) := by
  rw [ratReprChars, List.append_assoc, List.cons_append, parseRatChars,
    parseIntChars_intReprChars q.num _ (by simp [headNot, isDigitCh_slashCh])]
  simp [parseNatChars_natReprChars _ _ hrest, Rat.num_div_den]

/-! ### Python-style lists and metadata dicts -/

def commaCh : Char := Char.ofNat 44

def spaceCh : Char := Char.ofNat 32

def colonCh : Char := Char.ofNat 58

def lbrackCh : Char := Char.ofNat 91

def rbrackCh : Char := Char.ofNat 93

/-- The `", "`-separated tail of Python `str` of a list. -/
def sepReprChars (enc : α → List Char) : List α → List Char
  | [] => []
  | x :: xs => commaCh :: spaceCh :: enc x ++ sepReprChars enc xs

/-- Python `str` of a list: `[e1, e2, ...]`. -/
def listReprChars (enc : α → List Char) (l : List α) : List Char :=
  match l with
  | [] => [lbrackCh, rbrackCh]
  | x :: xs => lbrackCh :: enc x ++ sepReprChars enc xs ++ [rbrackCh]

/-- Parse the `", "`-separated tail of a list literal up to (and
consuming) the closing bracket.  The fuel bounds the number of elements;
the recursion is structural so that the parser evaluates by kernel
reduction. -/
def parseSepElems (pe : List Char → Option (α × List Char)) :
    Nat → List Char → Option (List α × List Char)
  | _, [] => none
  | fuel, c :: cs =>
    if c = rbrackCh then some ([], cs)
    else
      match fuel with
      | 0 => none
      | fuel' + 1 =>
        match cs with
        | [] => none
        | d :: cs2 =>
          if c = commaCh ∧ d = spaceCh then
            match pe cs2 with
            | some (x, rem) =>
              match parseSepElems pe fuel' rem with
              | some (xs, rem2) => some (x :: xs, rem2)
              | none => none
            | none => none
          else none

/-- Parse a Python list literal. -/
def parseListChars (pe : List Char → Option (α × List Char)) (l : List Char) :
    Option (List α × List Char) :=
  match l with
  | [] => none
  | c :: cs =>
    if c = lbrackCh then
      match cs with
      | [] => none
      | d :: cs2 =>
        if d = rbrackCh then some ([], cs2)
        else
          match pe cs with
          | some (x, rem) =>
            match parseSepElems pe rem.length rem with
            | some (xs, rem2) => some (x :: xs, rem2)
            | none => none
          | none => none
    else none

/-- After a serialized element inside a list comes either a separator or
the closing bracket. -/
def sepHead (l : List Char) : Prop :=
  l.head? = some commaCh ∨ l.head? = some rbrackCh

theorem sepHead_sepReprChars (enc : α → List Char) (xs : List α) (rest : List Char) :
    sepHead (sepReprChars enc xs ++ rbrackCh :: rest) := by
  cases xs with
  | nil => right; simp [sepReprChars]
  | cons x xs => left; simp [sepReprChars]

theorem length_le_sepReprChars (enc : α → List Char) :
    ∀ xs : List α, xs.length ≤ (sepReprChars enc xs).length := by
  intro xs
  induction xs with
  | nil => simp [sepReprChars]
  | cons x xs ih => simp [sepReprChars]; omega

theorem parseSepElems_sepReprChars (pe : List Char → Option (α × List Char))
    (enc : α → List Char)
    (henc : ∀ x rest, sepHead rest → pe (enc x ++ rest) = some (x, rest)) :
    ∀ (xs : List α) (fuel : Nat) (rest : List Char), xs.length ≤ fuel →
      parseSepElems pe fuel (sepReprChars enc xs ++ rbrackCh :: rest) = some (xs, rest) := by
  intro xs
  induction xs with
  | nil =>
    intro fuel rest _
    cases fuel <;> simp [sepReprChars, parseSepElems]
  | cons x xs ih =>
    intro fuel rest hfuel
    cases fuel with
    | zero => simp at hfuel
    | succ f =>
      simp only [sepReprChars, List.cons_append, List.append_assoc]
      rw [parseSepElems]
      rw [if_neg (by decide), if_pos ⟨rfl, rfl⟩]
      rw [henc x _ (sepHead_sepReprChars enc xs rest)]
      simp [ih f rest (by simpa using hfuel)]

theorem parseListChars_listReprChars (pe : List Char → Option (α × List Char))
    (enc : α → List Char)
    (henc : ∀ x rest, sepHead rest → pe (enc x ++ rest) = some (x, rest))
    (hhead : ∀ x, ∃ c cs, enc x = c :: cs ∧ c ≠ rbrackCh)
    (xs : List α) (rest : List Char) :
    parseListChars pe (listReprChars enc xs ++ rest) = some (xs, rest) := by
  cases xs with
  | nil =>
    simp [listReprChars, parseListChars]
  | cons x xs =>
    obtain ⟨c0, cs0, hcons, hc0⟩ := hhead x
    simp only [listReprChars, List.cons_append, List.append_assoc]
    have hrw : enc x ++ (sepReprChars enc xs ++ rbrackCh :: rest) =
        c0 :: (cs0 ++ (sepReprChars enc xs ++ rbrackCh :: rest)) := by
      rw [hcons, List.cons_append]
    have h1 := henc x (sepReprChars enc xs ++ rbrackCh :: rest)
      (sepHead_sepReprChars enc xs rest)
    rw [hrw] at h1
    have hlen : xs.length ≤ (sepReprChars enc xs ++ rbrackCh :: rest).length := by
      have := length_le_sepReprChars enc xs
      simp only [List.length_append, List.length_cons]
      omega
    have h2 := parseSepElems_sepReprChars pe enc henc xs _ rest hlen
    simp only [List.length_append, List.length_cons] at h2
    simp [parseListChars, hrw, hc0, h1, h2]

/-! ### Literal-prefix stripping (for the fixed dict keys) -/

def stripLit : List Char → List Char → Option (List Char)
  | [], l => some l
  | _ :: _, [] => none
  | p :: ps, c :: cs => if c = p then stripLit ps cs else none

theorem stripLit_append (pat rest : List Char) :
    stripLit pat (pat ++ rest) = some rest := by
  induction pat with
  | nil => simp [stripLit]
  | cons p ps ih => simp [stripLit, ih]

/-- The leading characters of the Python `str` of the metadata dict, up
to the first value: `{'Policy_Name': `. -/
def metaKey1Chars : List Char :=
  lbraceCh :: strReprChars "Policy_Name" ++ [colonCh, spaceCh]

/-- The middle characters, between the two values: `, 'Page_No': `. -/
def metaKey2Chars : List Char :=
  commaCh :: spaceCh :: strReprChars "Page_No" ++ [colonCh, spaceCh]

/-- Python `str` of the per-chunk metadata dict, keys in insertion
order. -/
def metaReprChars (m : Metadata) : List Char :=
  metaKey1Chars ++ strReprChars m.policy_name ++ metaKey2Chars ++
    intReprChars m.page_no ++ [rbraceCh]

def parseMetaChars (l : List Char) : Option (Metadata × List Char) :=
  match stripLit metaKey1Chars l with
  | some l1 =>
    match parseStrChars l1 with
    | some (pname, l2) =>
      match stripLit metaKey2Chars l2 with
      | some l3 =>
        match parseIntChars l3 with
        | some (pno, l4) =>
          match l4 with
          | [] => none
          | c :: cs => if c = rbraceCh then some (⟨pname, pno⟩, cs) else none
        | none => none
      | none => none
    | none => none
  | none => none

theorem parseMetaChars_metaReprChars (m : Metadata) (rest : List Char) :
    parseMetaChars (metaReprChars m ++ rest) = some (m, rest) := by
  rw [metaReprChars]
  simp only [List.append_assoc, List.cons_append, List.nil_append]
  have hrb : headNot isDigitCh (rbraceCh :: rest) := by
    show isDigitCh rbraceCh = false
    decide
  have hint := parseIntChars_intReprChars m.page_no (rbraceCh :: rest) hrb
  simp [parseMetaChars, stripLit_append, parseStrChars_strReprChars, hint]

/-! ### The three serialized payload columns -/

/-- `str(results['documents'][0])`. -/
def pyStrList (xs : List String) : String := String.mk (listReprChars strReprChars xs)

/-- `str(results['distances'][0])`. -/
def pyRatList (xs : List ℚ) : String := String.mk (listReprChars ratReprChars xs)

/-- `str(results['metadatas'][0])`. -/
def pyMetaList (xs : List Metadata) : String := String.mk (listReprChars metaReprChars xs)

/-- `ast.literal_eval` of a serialized document list: the parse must
consume the whole string. -/
def parsePyStrList (s : String) : Option (List String) :=
  match parseListChars parseStrChars s.data with
  | some (xs, []) => some xs
  | _ => none

def parsePyRatList (s : String) : Option (List ℚ) :=
  match parseListChars parseRatChars s.data with
  | some (xs, []) => some xs
  | _ => none

def parsePyMetaList (s : String) : Option (List Metadata) :=
  match parseListChars parseMetaChars s.data with
  | some (xs, []) => some xs
  | _ => none

theorem sepHead_headNot {rest : List Char} (h : sepHead rest) :
    headNot isDigitCh rest := by
  cases rest with
  | nil => trivial
  | cons c cs =>
    show isDigitCh c = false
    rcases h with h | h <;> · simp at h; subst h; decide

theorem strReprChars_head (s : String) :
    ∃ c cs, strReprChars s = c :: cs ∧ c ≠ rbrackCh :=
  ⟨quoteCh, escChars s.data ++ [quoteCh], rfl, by decide⟩

theorem isDigitCh_ne_rbrackCh {c : Char} (h : isDigitCh c = true) : c ≠ rbrackCh := by
  intro hc
  rw [hc] at h
  exact absurd h (by decide)

theorem ratReprChars_head (q : ℚ) :
    ∃ c cs, ratReprChars q = c :: cs ∧ c ≠ rbrackCh := by
  rw [ratReprChars, intReprChars]
  split
  · exact ⟨minusCh, _, rfl, by decide⟩
  · obtain ⟨c, cs, hcons⟩ : ∃ c cs, natReprChars q.num.natAbs = c :: cs := by
      cases h : natReprChars q.num.natAbs with
      | nil => exact absurd h (natReprChars_ne_nil _)
      | cons c cs => exact ⟨c, cs, rfl⟩
    have hdig : isDigitCh c = true :=
      natReprChars_all_digits _ c (hcons ▸ List.mem_cons_self c cs)
    exact ⟨c, _, by rw [hcons, List.cons_append], isDigitCh_ne_rbrackCh hdig⟩

theorem metaReprChars_head (m : Metadata) :
    ∃ c cs, metaReprChars m = c :: cs ∧ c ≠ rbrackCh := by
  refine ⟨lbraceCh,
    strReprChars "Policy_Name" ++ [colonCh, spaceCh] ++ strReprChars m.policy_name ++
      metaKey2Chars ++ intReprChars m.page_no ++ [rbraceCh], ?_, by decide⟩
  rw [metaReprChars, metaKey1Chars]
  simp only [List.cons_append, List.append_assoc]

theorem parsePyStrList_pyStrList (xs : List String) :
    parsePyStrList (pyStrList xs) = some xs := by
  rw [parsePyStrList, pyStrList]
  have h := parseListChars_listReprChars parseStrChars strReprChars
    (fun x rest _ => parseStrChars_strReprChars x rest)
    strReprChars_head xs []
  rw [List.append_nil] at h
  show (match parseListChars parseStrChars (listReprChars strReprChars xs) with
    | some (xs, []) => some xs
    | _ => none) = some xs
  rw [h]

theorem parsePyRatList_pyRatList (xs : List ℚ) :
    parsePyRatList (pyRatList xs) = some xs := by
  rw [parsePyRatList, pyRatList]
  have h := parseListChars_listReprChars parseRatChars ratReprChars
    (fun x rest hr => parseRatChars_ratReprChars x rest (sepHead_headNot hr))
    ratReprChars_head xs []
  rw [List.append_nil] at h
  show (match parseListChars parseRatChars (listReprChars ratReprChars xs) with
    | some (xs, []) => some xs
    | _ => none) = some xs
  rw [h]

theorem parsePyMetaList_pyMetaList (xs : List Metadata) :
    parsePyMetaList (pyMetaList xs) = some xs := by
  rw [parsePyMetaList, pyMetaList]
  have h := parseListChars_listReprChars parseMetaChars metaReprChars
    (fun x rest _ => parseMetaChars_metaReprChars x rest)
    metaReprChars_head xs []
  rw [List.append_nil] at h
  show (match parseListChars parseMetaChars (listReprChars metaReprChars xs) with
    | some (xs, []) => some xs
    | _ => none) = some xs
  rw [h]

/-! ### Stable sort by a rational key

Used both for the nearest-neighbor ordering of a collection query
(ascending by distance) and for the model of pandas
`sort_values` in the reranker. -/

/-- Insert `a` in front of the first element whose key is at least
`key a`; on a sorted list this is a stable insertion step. -/
def insertAsc (key : α → ℚ) (a : α) : List α → List α
  | [] => [a]
  | b :: bs => if key a ≤ key b then a :: b :: bs else b :: insertAsc key a bs

/-- Stable insertion sort, ascending by `key`. -/
def sortAscBy (key : α → ℚ) (l : List α) : List α := l.foldr (insertAsc key) []

/-- ChromaDB's default distance: squared L2. -/
def sqDist (v w : List ℚ) : ℚ := ((v.zip w).map (fun p => (p.1 - p.2) ^ 2)).sum

/-! ### ChromaDB collections and the two notebook functions -/

/-- `collection.query` after the query text has been embedded to `v`:
pair every record with its distance to `v`, order ascending by distance,
return the first `n` pairs.  An empty collection yields an empty result
(never an error), and fewer than `n` records yield fewer than `n`
results. -/
def nearestEntries (entries : List (Entry π)) (v : List ℚ) (n : Nat) :
    List (Entry π × ℚ) :=
  (sortAscBy (fun p => p.2) (entries.map (fun e => (e, sqDist v e.embedding)))).take n

/-- `collection.query(query_texts=[qtext], n_results=n)`: embed the query
text with the collection's (external, fallible) embedding function, then
search. -/
def collectionQuery (embed : String → Except Err (List ℚ)) (entries : List (Entry π))
    (qtext : String) (n : Nat) : Except Err (List (Entry π × ℚ)) :=
  match embed qtext with
  | .ok v => .ok (nearestEntries entries v n)
  | .error e => .error e

/-- `collection.add(documents=[doc], ids=[id0], metadatas=[meta])`:
embed the document and insert the record — unless the id is already
present, in which case ChromaDB keeps the existing record and skips the
new one (`add` warns on duplicate ids instead of overwriting; `upsert`
would overwrite, but the notebook calls `add`). -/
def chromaAdd (embed : String → Except Err (List ℚ)) (entries : List (Entry π))
    (id0 doc : String) (meta : π) : Except Err (List (Entry π)) :=
  match embed doc with
  | .ok v =>
    if entries.any (fun e => e.id == id0) then .ok entries
    else .ok (entries ++ [⟨id0, doc, v, meta⟩])
  | .error e => .error e

/-- The cache payload written on a miss: the three result columns of the
fresh query, serialized with Python `str`. -/
def encodePayload (results : List (Entry Metadata × ℚ)) : CachePayload :=
  ⟨pyStrList (results.map (fun r => r.1.document)),
   pyRatList (results.map (fun r => r.2)),
   pyMetaList (results.map (fun r => r.1.metadata))⟩

/-- The DataFrame built from a fresh query result. -/
def toRetrievalResult (results : List (Entry Metadata × ℚ)) : RetrievalResult :=
  ⟨results.map (fun r => r.1.document),
   results.map (fun r => r.1.metadata),
   results.map (fun r => r.2)⟩

/-- The cache-hit branch body: `ast.literal_eval` of the three payload
strings, in source order (documents, distances, metadatas), building the
returned DataFrame; a malformed payload raises. -/
def hitParse (payload : CachePayload) : Except Err RetrievalResult :=
  match parsePyStrList payload.documents with
  | some documents =>
    match parsePyRatList payload.distances with
    | some distances =>
      match parsePyMetaList payload.metadatas with
      | some metadatas => .ok ⟨documents, metadatas, distances⟩
      | none => .error .parseError
    | none => .error .parseError
  | none => .error .parseError

/-- The branch condition of `retrieve_documents`:
`cache_results['distances'][0] and cache_results['distances'][0][0] <=
cache_threshold` — the distance list of the single nearest cached query
is non-empty and its entry is within the threshold.  Stated over the
already-embedded query vector. -/
def cacheHitCond (cache : List (Entry CachePayload)) (v : List ℚ) (t : ℚ) : Bool :=
  match nearestEntries cache v 1 with
  | (_, d) :: _ => decide (d ≤ t)
  | [] => false

/-- The cache-miss tail of `retrieve_documents`: query the main
collection, `add` the query string (as both id and document) to the
cache collection with the serialized results as metadata, and return the
fresh DataFrame.  The final cache state is returned alongside the
result; on failure the cache is the untouched input state. -/
def freshRetrieve (embed : String → Except Err (List ℚ))
    (collection : List (Entry Metadata)) (cache : List (Entry CachePayload))
    (query : String) (n_results : Nat) :
    Except Err RetrievalResult × List (Entry CachePayload) :=
  match collectionQuery embed collection query n_results with
  | .ok results =>
    match chromaAdd embed cache query query (encodePayload results) with
    | .ok newCache => (.ok (toRetrievalResult results), newCache)
    | .error e => (.error e, cache)
  | .error e => (.error e, cache)

/-- `retrieve_documents(query, n_results, cache_threshold)` of the
notebook: query the cache collection for the single nearest stored
query; if one exists within the threshold, parse its payload back into a
DataFrame (cache hit, no write); otherwise retrieve fresh from the main
collection and populate the cache.  Returns the result (or the
propagated exception) together with the final cache collection state. -/
def retrieve_documents (embed : String → Except Err (List ℚ))
    (collection : List (Entry Metadata)) (cache : List (Entry CachePayload))
    (query : String) (n_results : Nat) (cache_threshold : ℚ) :
    Except Err RetrievalResult × List (Entry CachePayload) :=
  match collectionQuery embed cache query 1 with
  | .ok cache_results =>
    match cache_results with
    | (e, d) :: _ =>
      if d ≤ cache_threshold then (hitParse e.metadata, cache)
      else freshRetrieve embed collection cache query n_results
    | [] => freshRetrieve embed collection cache query n_results
  | .error e => (.error e, cache)

/-! ### The reranker -/

/-- The rows of the score-annotated DataFrame:
(document, metadata, distance, reranked score). -/
def rows4 (r : RankedResult) : List (String × Metadata × ℚ × ℚ) :=
  r.documents.zip (r.metadatas.zip (r.distances.zip r.reranked_scores))

/-- The rows of the plain retrieval DataFrame. -/
def rows3 (r : RetrievalResult) : List (String × Metadata × ℚ) :=
  r.documents.zip (r.metadatas.zip r.distances)

def score4 (x : String × Metadata × ℚ × ℚ) : ℚ := x.2.2.2

def dropScore (x : String × Metadata × ℚ × ℚ) : String × Metadata × ℚ :=
  (x.1, x.2.1, x.2.2.1)

def fromRows4 (l : List (String × Metadata × ℚ × ℚ)) : RankedResult :=
  ⟨l.map (fun x => x.1), l.map (fun x => x.2.1),
   l.map (fun x => x.2.2.1), l.map (fun x => x.2.2.2)⟩

/-- pandas `DataFrame.sort_values(by='Reranked_Scores', ascending=False)`
as the notebook's small frames hit it: pandas argsorts the column
ascending and, for `ascending=False`, reverses the resulting indexer
(`pandas.core.sorting.nargsort`); for frames this small numpy's
introsort is the stable insertion sort.  Net effect: stable ascending
sort by score, then reverse — so equal-score rows come out in reverse
input order. -/
def sortValuesDesc (r : RankedResult) : RankedResult :=
  fromRows4 ((sortAscBy score4 (rows4 r)).reverse)

/-- `cross_encoder.predict(inputs)` over
`inputs = [[query, doc] for doc in results_df['Documents']]`: one score
per document; if the external scorer raises for any candidate the whole
batch call raises. -/
def predictAll (predict : String → String → Except Err ℚ) (query : String) :
    List String → Except Err (List ℚ)
  | [] => .ok []
  | doc :: docs =>
    match predict query doc with
    | .ok s =>
      match predictAll predict query docs with
      | .ok ss => .ok (s :: ss)
      | .error e => .error e
    | .error e => .error e

/-- `rerank_results(query, results_df)` of the notebook: score every
document with the external cross-encoder (`cross_encoder.predict`),
assign the scores as a new `Reranked_Scores` column **on the caller's
DataFrame** (an in-place mutation, modelled by returning the final state
of the input frame as the second component), and return
`results_df.sort_values(by='Reranked_Scores', ascending=False)`. -/
def rerank_results (predict : String → String → Except Err ℚ) (query : String)
    (results_df : RetrievalResult) : Except Err (RankedResult × RankedResult) :=
  match predictAll predict query results_df.documents with
  | .ok scores =>
    let withScores : RankedResult :=
      ⟨results_df.documents, results_df.metadatas, results_df.distances, scores⟩
    .ok (sortValuesDesc withScores, withScores)
  | .error e => .error e

/-! ### Lemmas about the stable sort -/

theorem insertAsc_perm (key : α → ℚ) (a : α) (l : List α) :
    List.Perm (insertAsc key a l) (a :: l) := by
  induction l with
  | nil => exact List.Perm.refl _
  | cons b bs ih =>
    rw [insertAsc]
    split
    · exact List.Perm.refl _
    · exact List.Perm.trans (List.Perm.cons b ih) (List.Perm.swap a b bs)

theorem sortAscBy_perm (key : α → ℚ) (l : List α) :
    List.Perm (sortAscBy key l) l := by
  induction l with
  | nil => exact List.Perm.refl _
  | cons x l ih =>
    exact List.Perm.trans (insertAsc_perm key x _) (List.Perm.cons x ih)

theorem insertAsc_sorted (key : α → ℚ) (a : α) {l : List α}
    (h : l.Pairwise (fun x y => key x ≤ key y)) :
    (insertAsc key a l).Pairwise (fun x y => key x ≤ key y) := by
  induction l with
  | nil => simp [insertAsc]
  | cons b bs ih =>
    rw [insertAsc]
    rcases List.pairwise_cons.mp h with ⟨hb, hbs⟩
    split
    · rename_i hab
      refine List.pairwise_cons.mpr ⟨?_, h⟩
      intro y hy
      rcases List.mem_cons.mp hy with rfl | hy
      · exact hab
      · exact le_trans hab (hb y hy)
    · rename_i hab
      push_neg at hab
      refine List.pairwise_cons.mpr ⟨?_, ih hbs⟩
      intro y hy
      have hmem : y ∈ a :: bs := (insertAsc_perm key a bs).mem_iff.mp hy
      rcases List.mem_cons.mp hmem with rfl | hy2
      · exact le_of_lt hab
      · exact hb y hy2

theorem sortAscBy_sorted (key : α → ℚ) (l : List α) :
    (sortAscBy key l).Pairwise (fun x y => key x ≤ key y) := by
  induction l with
  | nil => simp [sortAscBy]
  | cons x l ih => exact insertAsc_sorted key x ih

theorem insertAsc_filter_of_eq (key : α → ℚ) (a : α) (k : ℚ) (hk : key a = k)
    (l : List α) :
    (insertAsc key a l).filter (fun x => decide (key x = k)) =
      a :: l.filter (fun x => decide (key x = k)) := by
  induction l with
  | nil => simp [insertAsc, List.filter, hk]
  | cons b bs ih =>
    rw [insertAsc]
    split
    · simp [List.filter, hk]
    · rename_i hab
      push_neg at hab
      have hbk : ¬ key b = k := by rw [← hk]; exact ne_of_lt hab
      simp only [List.filter, hbk, decide_eq_true_eq, if_neg, decide_eq_false hbk]
      rw [ih]
      simp [hbk]

theorem insertAsc_filter_of_ne (key : α → ℚ) (a : α) (k : ℚ) (hk : key a ≠ k)
    (l : List α) :
    (insertAsc key a l).filter (fun x => decide (key x = k)) =
      l.filter (fun x => decide (key x = k)) := by
  induction l with
  | nil => simp [insertAsc, List.filter, hk]
  | cons b bs ih =>
    rw [insertAsc]
    split
    · simp [List.filter, hk]
    · by_cases hbk : key b = k
      · simp only [List.filter, decide_eq_true hbk]
        rw [ih]
      · simp only [List.filter, decide_eq_false hbk]
        rw [ih]

theorem sortAscBy_filter (key : α → ℚ) (k : ℚ) (l : List α) :
    (sortAscBy key l).filter (fun x => decide (key x = k)) =
      l.filter (fun x => decide (key x = k)) := by
  induction l with
  | nil => rfl
  | cons x l ih =>
    show (insertAsc key x (sortAscBy key l)).filter _ = _
    by_cases hk : key x = k
    · rw [insertAsc_filter_of_eq key x k hk, ih]
      simp [List.filter, hk]
    · rw [insertAsc_filter_of_ne key x k hk, ih]
      simp [List.filter, hk]

theorem foldr_insertAsc_min (key : α → ℚ) (a : α) :
    ∀ l : List α, (∀ b ∈ l, key a < key b) →
      l.foldr (insertAsc key) [a] = a :: sortAscBy key l := by
  intro l
  induction l with
  | nil => intro _; rfl
  | cons b bs ih =>
    intro h
    rw [List.foldr_cons, ih (fun x hx => h x (List.mem_cons_of_mem _ hx))]
    show insertAsc key b (a :: sortAscBy key bs) = a :: sortAscBy key (b :: bs)
    rw [insertAsc]
    rw [if_neg (not_le.mpr (h b (List.mem_cons_self b bs)))]
    rfl

theorem sortAscBy_append_min (key : α → ℚ) (l : List α) (a : α)
    (h : ∀ b ∈ l, key a < key b) :
    sortAscBy key (l ++ [a]) = a :: sortAscBy key l := by
  rw [sortAscBy, List.foldr_append]
  exact foldr_insertAsc_min key a l h

theorem sortAscBy_head_min (key : α → ℚ) {l : List α} {x : α} {xs : List α}
    (h : sortAscBy key l = x :: xs) : ∀ y ∈ l, key x ≤ key y := by
  intro y hy
  have hmem : y ∈ x :: xs := h ▸ (sortAscBy_perm key l).symm.mem_iff.mp hy
  rcases List.mem_cons.mp hmem with rfl | hy2
  · exact le_refl _
  · have hs := sortAscBy_sorted key l
    rw [h] at hs
    exact (List.pairwise_cons.mp hs).1 y hy2

/-! ### Lemmas about distances, rows and payloads -/

theorem sqDist_self (v : List ℚ) : sqDist v v = 0 := by
  induction v with
  | nil => rfl
  | cons a v ih =>
    rw [sqDist, List.zip_cons_cons, List.map_cons, List.sum_cons]
    rw [sqDist] at ih
    rw [ih]
    ring

theorem rows4_fromRows4 (l : List (String × Metadata × ℚ × ℚ)) :
    rows4 (fromRows4 l) = l := by
  induction l with
  | nil => rfl
  | cons x l ih =>
    simp only [rows4, fromRows4, List.map_cons, List.zip_cons_cons] at ih ⊢
    rw [ih]

theorem hitParse_encodePayload (results : List (Entry Metadata × ℚ)) :
    hitParse (encodePayload results) = .ok (toRetrievalResult results) := by
  rw [hitParse, encodePayload]
  simp [parsePyStrList_pyStrList, parsePyRatList_pyRatList, parsePyMetaList_pyMetaList,
    toRetrievalResult]

theorem predictAll_ok_mem {predict : String → String → Except Err ℚ} {query : String}
    {docs : List String} {ss : List ℚ} (h : predictAll predict query docs = .ok ss) :
    ∀ d ∈ docs, ∃ s, predict query d = .ok s := by
  induction docs generalizing ss with
  | nil => intro d hd; exact absurd hd (List.not_mem_nil d)
  | cons doc docs ih =>
    intro d hd
    rw [predictAll] at h
    rcases hp : predict query doc with e | s
    · rw [hp] at h; exact absurd h (by simp)
    · rw [hp] at h
      rcases hr : predictAll predict query docs with e | ss2
      · rw [hr] at h; exact absurd h (by simp)
      · rcases List.mem_cons.mp hd with rfl | hd2
        · exact ⟨s, hp⟩
        · exact ih hr d hd2

theorem predictAll_ok_length {predict : String → String → Except Err ℚ} {query : String}
    {docs : List String} {ss : List ℚ} (h : predictAll predict query docs = .ok ss) :
    ss.length = docs.length := by
  induction docs generalizing ss with
  | nil =>
    rw [predictAll] at h
    cases h
    rfl
  | cons doc docs ih =>
    rw [predictAll] at h
    rcases hp : predict query doc with e | s
    · rw [hp] at h; exact absurd h (by simp)
    · rw [hp] at h
      rcases hr : predictAll predict query docs with e | ss2
      · rw [hr] at h; exact absurd h (by simp)
      · rw [hr] at h
        cases h
        simp [ih hr]

/-! ### Lemmas about `retrieve_documents` -/

theorem nearestEntries_nil {π : Type} (v : List ℚ) (n : Nat) :
    nearestEntries ([] : List (Entry π)) v n = [] := by
  cases n <;> rfl

theorem nearestEntries_singleton {π : Type} (e : Entry π) (v : List ℚ) :
    nearestEntries [e] v 1 = [(e, sqDist v e.embedding)] := rfl

theorem nearest_head_min {π : Type} {cache : List (Entry π)} {v : List ℚ}
    {e0 : Entry π} {d0 : ℚ} {rest : List (Entry π × ℚ)}
    (hne : nearestEntries cache v 1 = (e0, d0) :: rest) :
    ∀ e ∈ cache, d0 ≤ sqDist v e.embedding := by
  obtain ⟨s', hs⟩ : ∃ s', sortAscBy (fun p => p.2)
      (cache.map (fun e => (e, sqDist v e.embedding))) = (e0, d0) :: s' := by
    rw [nearestEntries] at hne
    rcases hsort : sortAscBy (fun p => p.2)
        (cache.map (fun e => (e, sqDist v e.embedding))) with _ | ⟨x, s'⟩
    · rw [hsort] at hne
      exact absurd hne (by simp)
    · rw [hsort] at hne
      simp only [List.take_succ_cons, List.take_zero] at hne
      injection hne with h1 h2
      exact ⟨s', by rw [hsort, h1]⟩
  intro e he
  have hmem : (e, sqDist v e.embedding) ∈
      cache.map (fun e => (e, sqDist v e.embedding)) :=
    List.mem_map_of_mem _ he
  exact sortAscBy_head_min (fun p => p.2) hs _ hmem

theorem nearestEntries_append_min {π : Type} (cache : List (Entry π)) (v : List ℚ)
    (eNew : Entry π)
    (h : ∀ e ∈ cache, sqDist v eNew.embedding < sqDist v e.embedding) :
    nearestEntries (cache ++ [eNew]) v 1 = [(eNew, sqDist v eNew.embedding)] := by
  rw [nearestEntries, List.map_append, List.map_singleton]
  rw [sortAscBy_append_min]
  · rfl
  · intro b hb
    obtain ⟨e, he, rfl⟩ := List.mem_map.mp hb
    exact h e he

theorem collectionQuery_ok {π : Type} {embed : String → Except Err (List ℚ)}
    {q : String} {v : List ℚ} (entries : List (Entry π)) (n : Nat)
    (hv : embed q = .ok v) :
    collectionQuery embed entries q n = .ok (nearestEntries entries v n) := by
  rw [collectionQuery, hv]

theorem retrieve_hit_eq {embed : String → Except Err (List ℚ)}
    {col : List (Entry Metadata)} {cache : List (Entry CachePayload)}
    {q : String} {n : Nat} {t : ℚ} {v : List ℚ}
    {e : Entry CachePayload} {d : ℚ} {rest : List (Entry CachePayload × ℚ)}
    (hv : embed q = .ok v) (hne : nearestEntries cache v 1 = (e, d) :: rest)
    (hd : d ≤ t) :
    retrieve_documents embed col cache q n t = (hitParse e.metadata, cache) := by
  rw [retrieve_documents, collectionQuery_ok cache 1 hv]
  simp only [hne, if_pos hd]

theorem retrieve_miss_head_eq {embed : String → Except Err (List ℚ)}
    {col : List (Entry Metadata)} {cache : List (Entry CachePayload)}
    {q : String} {n : Nat} {t : ℚ} {v : List ℚ}
    {e : Entry CachePayload} {d : ℚ} {rest : List (Entry CachePayload × ℚ)}
    (hv : embed q = .ok v) (hne : nearestEntries cache v 1 = (e, d) :: rest)
    (hd : ¬ d ≤ t) :
    retrieve_documents embed col cache q n t = freshRetrieve embed col cache q n := by
  rw [retrieve_documents, collectionQuery_ok cache 1 hv]
  simp only [hne, if_neg hd]

theorem retrieve_miss_nil_eq {embed : String → Except Err (List ℚ)}
    {col : List (Entry Metadata)} {cache : List (Entry CachePayload)}
    {q : String} {n : Nat} {t : ℚ} {v : List ℚ}
    (hv : embed q = .ok v) (hne : nearestEntries cache v 1 = []) :
    retrieve_documents embed col cache q n t = freshRetrieve embed col cache q n := by
  rw [retrieve_documents, collectionQuery_ok cache 1 hv]
  simp only [hne]

theorem cacheHitCond_of_head {cache : List (Entry CachePayload)} {v : List ℚ}
    {e : Entry CachePayload} {d : ℚ} {rest : List (Entry CachePayload × ℚ)} (t : ℚ)
    (hne : nearestEntries cache v 1 = (e, d) :: rest) :
    cacheHitCond cache v t = decide (d ≤ t) := by
  rw [cacheHitCond, hne]

theorem cacheHitCond_of_nil {cache : List (Entry CachePayload)} {v : List ℚ} (t : ℚ)
    (hne : nearestEntries cache v 1 = []) :
    cacheHitCond cache v t = false := by
  rw [cacheHitCond, hne]

theorem freshRetrieve_ok {embed : String → Except Err (List ℚ)}
    (col : List (Entry Metadata)) (cache : List (Entry CachePayload))
    {q : String} (n : Nat) {v : List ℚ}
    (hv : embed q = .ok v)
    (hnodup : cache.any (fun e => e.id == q) = false) :
    freshRetrieve embed col cache q n =
      (.ok (toRetrievalResult (nearestEntries col v n)),
       cache ++ [⟨q, q, v, encodePayload (nearestEntries col v n)⟩]) := by
  rw [freshRetrieve, collectionQuery_ok col n hv]
  simp only [chromaAdd, hv, hnodup]
  rfl

theorem retrieve_documents_empty_cache (embed : String → Except Err (List ℚ))
    (col : List (Entry Metadata)) (q : String) (n : Nat) (t : ℚ) :
    retrieve_documents embed col [] q n t = freshRetrieve embed col [] q n := by
  rcases hv : embed q with e | v
  · rw [retrieve_documents, freshRetrieve, collectionQuery, hv, collectionQuery, hv]
  · exact retrieve_miss_nil_eq hv (nearestEntries_nil v 1)

theorem freshRetrieve_snd_of_error {embed : String → Except Err (List ℚ)}
    {col : List (Entry Metadata)} {cache : List (Entry CachePayload)}
    {q : String} {n : Nat} {e : Err}
    (h : (freshRetrieve embed col cache q n).1 = .error e) :
    (freshRetrieve embed col cache q n).2 = cache := by
  rw [freshRetrieve] at h ⊢
  rcases h1 : collectionQuery embed col q n with e1 | results
  · simp only [h1]
  · simp only [h1] at h ⊢
    rcases h2 : chromaAdd embed cache q q (encodePayload results) with e2 | nc
    · simp only [h2]
    · simp only [h2] at h
      exact absurd h (by simp)

theorem nearestEntries_eq_nil {π : Type} {cache : List (Entry π)} {v : List ℚ}
    (h : nearestEntries cache v 1 = []) : cache = [] := by
  rcases cache with _ | ⟨e, cache⟩
  · rfl
  · exfalso
    rw [nearestEntries] at h
    rcases hs : sortAscBy (fun p => p.2)
        ((e :: cache).map fun e => (e, sqDist v e.embedding)) with _ | ⟨x, s'⟩
    · have hlen := (sortAscBy_perm (fun p => p.2)
        ((e :: cache).map fun e => (e, sqDist v e.embedding))).length_eq
      rw [hs] at hlen
      simp at hlen
    · rw [hs] at h
      simp at h

/-! ### Concrete instances used by the witnesses -/

def embedW : String → Except Err (List ℚ) := fun _ => .ok [0]

def embedFailW : String → Except Err (List ℚ) := fun _ => .error .embeddingError

def mW : Metadata := ⟨"Policy_A.pdf", 5⟩

def colW : List (Entry Metadata) :=
  [⟨"0", "Diabetic coverage is included after a waiting period.", [0], mW⟩]

def df1W : RetrievalResult :=
  ⟨["Diabetic coverage is included after a waiting period."], [mW], [0]⟩

def c1W : List (Entry CachePayload) := (retrieve_documents embedW colW [] "a" 1 0).2

def cacheW : List (Entry CachePayload) := [⟨"x", "x", [7], ⟨"d", "e", "f"⟩⟩]

/-! ### The claims -/

/-- C1: Cache hit correctness of the retriever: starting from an empty
cache, after `retrieve_documents(Q1, ...)` has stored Q1, a second call
`retrieve_documents(Q2, ...)` whose embedding distance to the stored Q1
is at most `cache_threshold` takes the cache-hit path and returns
exactly Q1's result with no cache change; if the distance is strictly
greater than the threshold it takes the cache-miss path. -/
theorem cache_hit_correctness
    (embed : String → Except Err (List ℚ)) (col : List (Entry Metadata))
    (Q1 Q2 : String) (n1 n2 : Nat) (t : ℚ) (v1 v2 : List ℚ)
    (h1 : embed Q1 = .ok v1) (h2 : embed Q2 = .ok v2)
    (df1 : RetrievalResult) (c1 : List (Entry CachePayload))
    (hrun : retrieve_documents embed col [] Q1 n1 t = (.ok df1, c1)) :
    (sqDist v2 v1 ≤ t →
      cacheHitCond c1 v2 t = true ∧
      retrieve_documents embed col c1 Q2 n2 t = (.ok df1, c1)) ∧
    (t < sqDist v2 v1 →
      cacheHitCond c1 v2 t = false ∧
      retrieve_documents embed col c1 Q2 n2 t = freshRetrieve embed col c1 Q2 n2) := by
  rw [retrieve_documents_empty_cache, freshRetrieve_ok col [] n1 h1 rfl,
    List.nil_append] at hrun
  have hdf : Except.ok (toRetrievalResult (nearestEntries col v1 n1)) =
      (Except.ok df1 : Except Err RetrievalResult) := congrArg Prod.fst hrun
  have hc : [(⟨Q1, Q1, v1, encodePayload (nearestEntries col v1 n1)⟩ :
      Entry CachePayload)] = c1 := congrArg Prod.snd hrun
  injection hdf with hdf1
  subst hc
  have hne : nearestEntries
      [(⟨Q1, Q1, v1, encodePayload (nearestEntries col v1 n1)⟩ : Entry CachePayload)]
      v2 1 =
      [(⟨Q1, Q1, v1, encodePayload (nearestEntries col v1 n1)⟩, sqDist v2 v1)] :=
    nearestEntries_singleton _ v2
  constructor
  · intro hle
    refine ⟨?_, ?_⟩
    · rw [cacheHitCond_of_head t hne]
      exact decide_eq_true hle
    · rw [retrieve_hit_eq h2 hne hle]
      show (hitParse (encodePayload (nearestEntries col v1 n1)), _) = _
      rw [hitParse_encodePayload, hdf1]
  · intro hgt
    have hd : ¬ sqDist v2 v1 ≤ t := not_le.mpr hgt
    refine ⟨?_, ?_⟩
    · rw [cacheHitCond_of_head t hne]
      exact decide_eq_false hd
    · exact retrieve_miss_head_eq h2 hne hd

/-- Witness for C1 at a concrete store, both queries embedding to the
same vector and threshold 0: the hit branch applies, the miss branch is
vacuous. -/
theorem cache_hit_correctness_witness :
    (sqDist [0] [0] ≤ (0 : ℚ) →
      cacheHitCond c1W [0] 0 = true ∧
      retrieve_documents embedW colW c1W "b" 3 0 = (.ok df1W, c1W)) ∧
    ((0 : ℚ) < sqDist [0] [0] →
      cacheHitCond c1W [0] 0 = false ∧
      retrieve_documents embedW colW c1W "b" 3 0 = freshRetrieve embedW colW c1W "b" 3) :=
  cache_hit_correctness embedW colW "a" "b" 1 3 0 [0] [0] rfl rfl df1W c1W
    (by with_unfolding_all decide)

/-- C8: Empty-cache boundary: a nearest-neighbor lookup against an empty
SemanticCache returns no candidate (a miss, never an error), so
`retrieve_documents` on a fresh cache is exactly the fresh-retrieval
path, for every query, `n_results` and threshold (and for every
embedder: an embedding failure propagates identically on both sides). -/
theorem empty_cache_always_misses (embed : String → Except Err (List ℚ))
    (col : List (Entry Metadata)) (q : String) (n : Nat) (t : ℚ) :
    (∀ v : List ℚ, nearestEntries ([] : List (Entry CachePayload)) v 1 = []) ∧
    retrieve_documents embed col [] q n t = freshRetrieve embed col [] q n :=
  ⟨fun v => nearestEntries_nil v 1, retrieve_documents_empty_cache embed col q n t⟩

/-- C6: No partial cache write on retrieval failure: whenever
`retrieve_documents` propagates an error (embedding failure, index
failure, or a malformed cached payload), the cache collection is exactly
the input state — the `add` happens only after the fresh query has
succeeded. -/
theorem no_partial_cache_write_on_error (embed : String → Except Err (List ℚ))
    (col : List (Entry Metadata)) (cache : List (Entry CachePayload))
    (q : String) (n : Nat) (t : ℚ) (e : Err)
    (h : (retrieve_documents embed col cache q n t).1 = .error e) :
    (retrieve_documents embed col cache q n t).2 = cache := by
  rw [retrieve_documents] at h ⊢
  rcases hq : collectionQuery embed cache q 1 with e1 | cres
  · simp only [hq]
  · simp only [hq] at h ⊢
    rcases cres with _ | ⟨⟨e0, d⟩, rest⟩
    · exact freshRetrieve_snd_of_error h
    · by_cases hd : d ≤ t
      · simp only [if_pos hd]
      · simp only [if_neg hd] at h ⊢
        exact freshRetrieve_snd_of_error h

/-- Witness for C6: a failing embedder propagates and the cache state is
untouched. -/
theorem no_partial_cache_write_on_error_witness :
    (retrieve_documents embedFailW colW cacheW "q" 5 0).2 = cacheW :=
  no_partial_cache_write_on_error embedFailW colW cacheW "q" 5 0
    .embeddingError (by with_unfolding_all decide)

/-- C5: Idempotence of retrieval under cache: for every well-formed
cache state (stored embeddings are the embeddings of the stored query
texts), a nonnegative threshold and a successful call, repeating
`retrieve_documents` with the identical query string and no intervening
VectorStore mutation returns the identical DataFrame and cache state,
the second call being served by a cache hit; the final conjuncts record
that the `str`/`ast.literal_eval` round trip through the cache payload
reproduces the returned lists exactly. -/
theorem retrieve_idempotent
    (embed : String → Except Err (List ℚ)) (col : List (Entry Metadata))
    (cache : List (Entry CachePayload)) (Q : String) (n : Nat) (t : ℚ) (v : List ℚ)
    (ht : 0 ≤ t) (hv : embed Q = .ok v)
    (hwf : ∀ e ∈ cache, embed e.id = .ok e.embedding)
    (df1 : RetrievalResult) (c1 : List (Entry CachePayload))
    (hrun : retrieve_documents embed col cache Q n t = (.ok df1, c1)) :
    (retrieve_documents embed col c1 Q n t = (.ok df1, c1) ∧
      cacheHitCond c1 v t = true) ∧
    (parsePyStrList (pyStrList df1.documents) = some df1.documents ∧
      parsePyRatList (pyRatList df1.distances) = some df1.distances ∧
      parsePyMetaList (pyMetaList df1.metadatas) = some df1.metadatas) := by
  refine ⟨?_, parsePyStrList_pyStrList _, parsePyRatList_pyRatList _,
    parsePyMetaList_pyMetaList _⟩
  rcases hne : nearestEntries cache v 1 with _ | ⟨⟨e0, d0⟩, rest⟩
  · -- lookup finds nothing: the cache is empty and the call is a miss
    have hcache := nearestEntries_eq_nil hne
    subst hcache
    rw [retrieve_miss_nil_eq hv hne,
      freshRetrieve_ok col [] n hv rfl, List.nil_append] at hrun
    have hdf : Except.ok (toRetrievalResult (nearestEntries col v n)) =
        (Except.ok df1 : Except Err RetrievalResult) := congrArg Prod.fst hrun
    have hc : [(⟨Q, Q, v, encodePayload (nearestEntries col v n)⟩ :
        Entry CachePayload)] = c1 := congrArg Prod.snd hrun
    injection hdf with hdf1
    subst hc
    have hne2 : nearestEntries
        [(⟨Q, Q, v, encodePayload (nearestEntries col v n)⟩ : Entry CachePayload)]
        v 1 =
        [(⟨Q, Q, v, encodePayload (nearestEntries col v n)⟩, sqDist v v)] :=
      nearestEntries_singleton _ v
    have hd2 : sqDist v v ≤ t := by rw [sqDist_self]; exact ht
    refine ⟨?_, ?_⟩
    · rw [retrieve_hit_eq hv hne2 hd2]
      show (hitParse (encodePayload (nearestEntries col v n)), _) = _
      rw [hitParse_encodePayload, hdf1]
    · rw [cacheHitCond_of_head t hne2]
      exact decide_eq_true hd2
  · by_cases hd : d0 ≤ t
    · -- the first call is already a hit: no state change, so the second
      -- call is the very same computation
      rw [retrieve_hit_eq hv hne hd] at hrun
      have hpc : hitParse e0.metadata = .ok df1 := congrArg Prod.fst hrun
      have hcc : cache = c1 := congrArg Prod.snd hrun
      subst hcc
      refine ⟨?_, ?_⟩
      · rw [retrieve_hit_eq hv hne hd, hpc]
      · rw [cacheHitCond_of_head t hne]
        exact decide_eq_true hd
    · -- the first call is a miss: every cached entry is strictly farther
      -- than the threshold, so the freshly stored entry (distance 0) is
      -- the strict nearest for the second call
      rw [retrieve_miss_head_eq hv hne hd] at hrun
      have hfar : ∀ e ∈ cache, t < sqDist v e.embedding := fun e he =>
        lt_of_lt_of_le (not_le.mp hd) (nearest_head_min hne e he)
      have hnodup : cache.any (fun e => e.id == Q) = false := by
        rw [List.any_eq_false]
        intro e he hbeq
        have hid : e.id = Q := by simpa using hbeq
        have hwe := hwf e he
        rw [hid, hv] at hwe
        injection hwe with hev
        have hf := hfar e he
        rw [← hev, sqDist_self] at hf
        exact absurd ht (not_le.mpr hf)
      rw [freshRetrieve_ok col cache n hv hnodup] at hrun
      have hdf : Except.ok (toRetrievalResult (nearestEntries col v n)) =
          (Except.ok df1 : Except Err RetrievalResult) := congrArg Prod.fst hrun
      have hc : cache ++ [(⟨Q, Q, v, encodePayload (nearestEntries col v n)⟩ :
          Entry CachePayload)] = c1 := congrArg Prod.snd hrun
      injection hdf with hdf1
      subst hc
      have hne2 : nearestEntries
          (cache ++ [(⟨Q, Q, v, encodePayload (nearestEntries col v n)⟩ :
            Entry CachePayload)]) v 1 =
          [(⟨Q, Q, v, encodePayload (nearestEntries col v n)⟩, sqDist v v)] := by
        refine nearestEntries_append_min cache v _ ?_
        intro e he
        show sqDist v v < sqDist v e.embedding
        rw [sqDist_self]
        exact lt_of_le_of_lt ht (hfar e he)
      have hd2 : sqDist v v ≤ t := by rw [sqDist_self]; exact ht
      refine ⟨?_, ?_⟩
      · rw [retrieve_hit_eq hv hne2 hd2]
        show (hitParse (encodePayload (nearestEntries col v n)), _) = _
        rw [hitParse_encodePayload, hdf1]
      · rw [cacheHitCond_of_head t hne2]
        exact decide_eq_true hd2

/-- Witness for C5: one store, empty starting cache, threshold 0. -/
theorem retrieve_idempotent_witness :
    (retrieve_documents embedW colW c1W "a" 1 0 = (.ok df1W, c1W) ∧
      cacheHitCond c1W [0] 0 = true) ∧
    (parsePyStrList (pyStrList df1W.documents) = some df1W.documents ∧
      parsePyRatList (pyRatList df1W.distances) = some df1W.distances ∧
      parsePyMetaList (pyMetaList df1W.metadatas) = some df1W.metadatas) :=
  retrieve_idempotent embedW colW [] "a" 1 0 [0] (le_refl 0) rfl
    (fun e he => absurd he (List.not_mem_nil e)) df1W c1W
    (by with_unfolding_all decide)

def c5W : List (Entry CachePayload) := (retrieve_documents embedW colW [] "a" 5 0).2

/-- C9 (amended): On a cache hit the current `n_results` argument has no
effect: the call returns exactly the candidate sequence frozen at the
original miss, for every `n_results` passed now; the frozen sequence's
length is `min n_results (store size)` of the original miss call (the
claim's "length is the n_results of that original miss" only holds when
the store has at least that many chunks). -/
theorem cache_hit_ignores_n_results
    (embed : String → Except Err (List ℚ)) (col : List (Entry Metadata))
    (Q1 Q2 : String) (n1 : Nat) (t : ℚ) (v1 v2 : List ℚ)
    (h1 : embed Q1 = .ok v1) (h2 : embed Q2 = .ok v2)
    (hd : sqDist v2 v1 ≤ t)
    (df1 : RetrievalResult) (c1 : List (Entry CachePayload))
    (hrun : retrieve_documents embed col [] Q1 n1 t = (.ok df1, c1)) :
    (∀ n2, retrieve_documents embed col c1 Q2 n2 t = (.ok df1, c1)) ∧
    df1.documents.length = min n1 col.length := by
  rw [retrieve_documents_empty_cache, freshRetrieve_ok col [] n1 h1 rfl,
    List.nil_append] at hrun
  have hdf : Except.ok (toRetrievalResult (nearestEntries col v1 n1)) =
      (Except.ok df1 : Except Err RetrievalResult) := congrArg Prod.fst hrun
  have hc : [(⟨Q1, Q1, v1, encodePayload (nearestEntries col v1 n1)⟩ :
      Entry CachePayload)] = c1 := congrArg Prod.snd hrun
  injection hdf with hdf1
  subst hc
  constructor
  · intro n2
    have hne : nearestEntries
        [(⟨Q1, Q1, v1, encodePayload (nearestEntries col v1 n1)⟩ : Entry CachePayload)]
        v2 1 =
        [(⟨Q1, Q1, v1, encodePayload (nearestEntries col v1 n1)⟩, sqDist v2 v1)] :=
      nearestEntries_singleton _ v2
    rw [retrieve_hit_eq h2 hne hd]
    show (hitParse (encodePayload (nearestEntries col v1 n1)), _) = _
    rw [hitParse_encodePayload, hdf1]
  · rw [← hdf1]
    show ((nearestEntries col v1 n1).map (fun r => r.1.document)).length = _
    rw [List.length_map, nearestEntries, List.length_take,
      (sortAscBy_perm _ _).length_eq, List.length_map]

/-- Witness for C9's amended theorem. -/
theorem cache_hit_ignores_n_results_witness :
    (∀ n2, retrieve_documents embedW colW c1W "b" n2 0 = (.ok df1W, c1W)) ∧
    df1W.documents.length = min 1 colW.length :=
  cache_hit_ignores_n_results embedW colW "a" "b" 1 0 [0] [0] rfl rfl
    (by with_unfolding_all decide) df1W c1W (by with_unfolding_all decide)

/-- C9 counterexample: with a single-chunk store the original miss is
called with `n_results = 5`, yet the subsequent hit (here with
`n_results = 9`) returns 1 candidate, not 5 — the claim's "whose length
is the n_results of that original miss call" fails when the store holds
fewer chunks. -/
theorem hit_length_ne_original_n_results :
    retrieve_documents embedW colW [] "a" 5 0 = (.ok df1W, c5W) ∧
    retrieve_documents embedW colW c5W "a" 9 0 = (.ok df1W, c5W) ∧
    df1W.documents.length = 1 ∧ ¬ df1W.documents.length = 5 := by
  with_unfolding_all decide

def pay1 : CachePayload := ⟨"one", "one", "one"⟩

def pay2 : CachePayload := ⟨"two", "two", "two"⟩

def entQ : Entry CachePayload := ⟨"q", "q", [0], pay1⟩

/-- C3 counterexample: storing a second result under the already-present
query text `"q"` does not replace the entry — ChromaDB `add` skips
duplicate ids — so the subsequently looked-up payload is the FIRST
stored one, not the most recent: the claim's idempotent-overwrite
("the most recently stored result wins") fails. -/
theorem cache_store_overwrite_cex :
    chromaAdd embedW [] "q" "q" pay1 = .ok [entQ] ∧
    chromaAdd embedW [entQ] "q" "q" pay2 = .ok [entQ] ∧
    nearestEntries [entQ] [0] 1 = [(entQ, 0)] ∧
    entQ.metadata = pay1 ∧
    ¬ (nearestEntries [entQ] [0] 1).map (fun p => p.1.metadata) = [pay2] := by
  with_unfolding_all decide

/-- C3 (amended): storing under a `query_text` whose id already exists
in the cache neither fails nor creates a duplicate entry, but it keeps
the original entry unchanged (first store wins): the second `add` is a
no-op and the subsequent lookup still hits the originally stored
payload. -/
theorem cache_store_first_wins (embed : String → Except Err (List ℚ)) (v : List ℚ)
    (Q : String) (P1 P2 : CachePayload) (t : ℚ)
    (hv : embed Q = .ok v) (ht : 0 ≤ t) :
    chromaAdd embed [] Q Q P1 = .ok [⟨Q, Q, v, P1⟩] ∧
    chromaAdd embed [⟨Q, Q, v, P1⟩] Q Q P2 = .ok [⟨Q, Q, v, P1⟩] ∧
    cacheHitCond [⟨Q, Q, v, P1⟩] v t = true ∧
    nearestEntries [(⟨Q, Q, v, P1⟩ : Entry CachePayload)] v 1 =
      [(⟨Q, Q, v, P1⟩, sqDist v v)] ∧
    sqDist v v = 0 := by
  have hne : nearestEntries [(⟨Q, Q, v, P1⟩ : Entry CachePayload)] v 1 =
      [(⟨Q, Q, v, P1⟩, sqDist v v)] := nearestEntries_singleton _ v
  refine ⟨?_, ?_, ?_, hne, sqDist_self v⟩
  · rw [chromaAdd, hv]
    rfl
  · have hany : ([(⟨Q, Q, v, P1⟩ : Entry CachePayload)]).any
        (fun e => e.id == Q) = true := by simp
    simp [chromaAdd, hv, hany]
  · rw [cacheHitCond_of_head t hne]
    refine decide_eq_true ?_
    rw [sqDist_self]
    exact ht

/-- Witness for C3's amended theorem. -/
theorem cache_store_first_wins_witness :
    chromaAdd embedW [] "q" "q" pay1 = .ok [⟨"q", "q", [0], pay1⟩] ∧
    chromaAdd embedW [⟨"q", "q", [0], pay1⟩] "q" "q" pay2 =
      .ok [⟨"q", "q", [0], pay1⟩] ∧
    cacheHitCond [⟨"q", "q", [0], pay1⟩] [0] 0 = true ∧
    nearestEntries [(⟨"q", "q", [0], pay1⟩ : Entry CachePayload)] [0] 1 =
      [(⟨"q", "q", [0], pay1⟩, sqDist [0] [0])] ∧
    sqDist [0] [0] = 0 :=
  cache_store_first_wins embedW [0] "q" pay1 pay2 0 rfl (le_refl 0)

/-! ### Rerank claims -/

theorem rerank_results_ok {predict : String → String → Except Err ℚ} {query : String}
    {results_df : RetrievalResult} {out wdf : RankedResult}
    (h : rerank_results predict query results_df = .ok (out, wdf)) :
    ∃ scores, predictAll predict query results_df.documents = .ok scores ∧
      wdf = ⟨results_df.documents, results_df.metadatas,
        results_df.distances, scores⟩ ∧
      out = sortValuesDesc wdf := by
  rw [rerank_results] at h
  rcases hp : predictAll predict query results_df.documents with e | scores
  · rw [hp] at h
    exact absurd h (by simp)
  · simp only [hp] at h
    injection h with h1
    rw [Prod.mk.injEq] at h1
    obtain ⟨ho, hw⟩ := h1
    exact ⟨scores, rfl, hw.symm, by rw [← ho, hw]⟩

theorem rows4_sortValuesDesc (r : RankedResult) :
    rows4 (sortValuesDesc r) = (sortAscBy score4 (rows4 r)).reverse := by
  rw [sortValuesDesc, rows4_fromRows4]

def predW0 : String → String → Except Err ℚ := fun _ _ => .ok 0

def dfTie : RetrievalResult := ⟨["A", "B"], [mW, mW], [0, 0]⟩

def outTie : RankedResult := ⟨["B", "A"], [mW, mW], [0, 0], [0, 0]⟩

def wdfTie : RankedResult := ⟨["A", "B"], [mW, mW], [0, 0], [0, 0]⟩

/-- C2 (amended): Rerank ordering holds — whenever candidate A appears
before candidate B in the returned frame, A's score is at least B's —
but the tie-break is NOT stable: pandas reverses the ascending argsort
for a descending sort, so candidates with equal scores appear in
REVERSE input order. -/
theorem rerank_ordering_tie_reversed (predict : String → String → Except Err ℚ)
    (query : String) (results_df : RetrievalResult) (out wdf : RankedResult)
    (h : rerank_results predict query results_df = .ok (out, wdf)) :
    (rows4 out).Pairwise (fun a b => score4 b ≤ score4 a) ∧
    ∀ k, (rows4 out).filter (fun r => decide (score4 r = k)) =
      ((rows4 wdf).filter (fun r => decide (score4 r = k))).reverse := by
  obtain ⟨scores, hp, hw, ho⟩ := rerank_results_ok h
  subst ho
  rw [rows4_sortValuesDesc]
  constructor
  · exact List.pairwise_reverse.mpr (sortAscBy_sorted score4 (rows4 wdf))
  · intro k
    rw [List.filter_reverse, sortAscBy_filter]

/-- Witness for C2's amended theorem (two equal-score candidates). -/
theorem rerank_ordering_tie_reversed_witness :
    (rows4 outTie).Pairwise (fun a b => score4 b ≤ score4 a) ∧
    ∀ k, (rows4 outTie).filter (fun r => decide (score4 r = k)) =
      ((rows4 wdfTie).filter (fun r => decide (score4 r = k))).reverse :=
  rerank_ordering_tie_reversed predW0 "q" dfTie outTie wdfTie
    (by with_unfolding_all decide)

/-- C2 counterexample: both candidates score 0; the claim's stable
tie-break requires output order [A, B] (the input order), but the code
returns [B, A] — the equal-score filter of the output differs from that
of the input. -/
theorem rerank_stability_cex :
    rerank_results predW0 "q" dfTie = .ok (outTie, wdfTie) ∧
    outTie.documents = ["B", "A"] ∧ dfTie.documents = ["A", "B"] ∧
    ¬ (rows4 outTie).filter (fun r => decide (score4 r = 0)) =
      (rows4 wdfTie).filter (fun r => decide (score4 r = 0)) := by
  with_unfolding_all decide

theorem zip4_proj (a : List String) (b : List Metadata) (c d : List ℚ)
    (hb : b.length = a.length) (hc : c.length = a.length)
    (hd : d.length = a.length) :
    (a.zip (b.zip (c.zip d))).map dropScore = a.zip (b.zip c) := by
  induction a generalizing b c d with
  | nil => simp
  | cons x a ih =>
    rcases b with _ | ⟨y, b⟩
    · simp at hb
    · rcases c with _ | ⟨z, c⟩
      · simp at hc
      · rcases d with _ | ⟨w, d⟩
        · simp at hd
        · simp only [List.zip_cons_cons, List.map_cons]
          rw [ih b c d (by simpa using hb) (by simpa using hc) (by simpa using hd)]
          rfl

/-- C4: Reranking is a permutation: the returned frame's rows are a
permutation of the score-annotated input rows, and forgetting the score
column, a permutation of the input RetrievalResult's rows — no
candidate is added, dropped or duplicated. -/
theorem rerank_is_permutation (predict : String → String → Except Err ℚ)
    (query : String) (results_df : RetrievalResult) (out wdf : RankedResult)
    (hlm : results_df.metadatas.length = results_df.documents.length)
    (hld : results_df.distances.length = results_df.documents.length)
    (h : rerank_results predict query results_df = .ok (out, wdf)) :
    List.Perm (rows4 out) (rows4 wdf) ∧
    List.Perm ((rows4 out).map dropScore) (rows3 results_df) := by
  obtain ⟨scores, hp, hw, ho⟩ := rerank_results_ok h
  subst ho
  have hperm : List.Perm (rows4 (sortValuesDesc wdf)) (rows4 wdf) := by
    rw [rows4_sortValuesDesc]
    exact List.Perm.trans (List.reverse_perm _) (sortAscBy_perm score4 (rows4 wdf))
  refine ⟨hperm, ?_⟩
  have hrows : (rows4 wdf).map dropScore = rows3 results_df := by
    subst hw
    exact zip4_proj results_df.documents results_df.metadatas results_df.distances
      scores hlm hld (predictAll_ok_length hp)
  rw [← hrows]
  exact hperm.map dropScore

/-- Witness for C4. -/
theorem rerank_is_permutation_witness :
    List.Perm (rows4 outTie) (rows4 wdfTie) ∧
    List.Perm ((rows4 outTie).map dropScore) (rows3 dfTie) :=
  rerank_is_permutation predW0 "q" dfTie outTie wdfTie (by decide) (by decide)
    (by with_unfolding_all decide)

/-- C7: Whole-call failure of reranking on scorer error: if the external
scorer raises for any candidate document, `rerank_results` propagates an
error — no RankedResult (not even partial) is returned. -/
theorem rerank_whole_call_fails (predict : String → String → Except Err ℚ)
    (query : String) (results_df : RetrievalResult) (doc : String) (err : Err)
    (hmem : doc ∈ results_df.documents) (herr : predict query doc = .error err) :
    ∃ e, rerank_results predict query results_df = .error e := by
  rcases hp : predictAll predict query results_df.documents with e | scores
  · refine ⟨e, ?_⟩
    rw [rerank_results, hp]
  · obtain ⟨s, hs⟩ := predictAll_ok_mem hp doc hmem
    rw [hs] at herr
    exact absurd herr (by simp)

def predFailW : String → String → Except Err ℚ :=
  fun _ d => if d = "d2" then .error .scoringError else .ok 1

def dfTwoW : RetrievalResult := ⟨["d1", "d2"], [mW, mW], [0, 0]⟩

/-- Witness for C7: the scorer raises for `d2`. -/
theorem rerank_whole_call_fails_witness :
    ∃ e, rerank_results predFailW "premium for seniors" dfTwoW = .error e :=
  rerank_whole_call_fails predFailW "premium for seniors" dfTwoW "d2"
    .scoringError (by decide) (by decide)

/-- C10: `rerank_results` mutates its input in place: after the call the
caller's DataFrame (returned as the second component: its final state)
carries the added `Reranked_Scores` column with exactly the predicted
scores next to the unchanged three input columns, and the returned
ranking is the descending sort of that same mutated frame (its rows are
a permutation of the mutated input's rows). -/
theorem rerank_mutates_input (predict : String → String → Except Err ℚ)
    (query : String) (results_df : RetrievalResult) (out wdf : RankedResult)
    (h : rerank_results predict query results_df = .ok (out, wdf)) :
    ∃ scores, predictAll predict query results_df.documents = .ok scores ∧
      wdf = ⟨results_df.documents, results_df.metadatas,
        results_df.distances, scores⟩ ∧
      out = sortValuesDesc wdf ∧
      List.Perm (rows4 out) (rows4 wdf) := by
  obtain ⟨scores, hp, hw, ho⟩ := rerank_results_ok h
  refine ⟨scores, hp, hw, ho, ?_⟩
  rw [ho, rows4_sortValuesDesc]
  exact List.Perm.trans (List.reverse_perm _) (sortAscBy_perm score4 (rows4 wdf))

/-- Witness for C10. -/
theorem rerank_mutates_input_witness :
    ∃ scores, predictAll predW0 "q" dfTie.documents = .ok scores ∧
      wdfTie = ⟨dfTie.documents, dfTie.metadatas, dfTie.distances, scores⟩ ∧
      outTie = sortValuesDesc wdfTie ∧
      List.Perm (rows4 outTie) (rows4 wdfTie) :=
  rerank_mutates_input predW0 "q" dfTie outTie wdfTie
    (by with_unfolding_all decide)

end InSurely
